import Mathlib

/-!
Verification development for the WowSettingBackup backup/restore engine.

The definitions below are shallow embeddings of the program's core
functions: retention pruning (`BackupService.cleanOldBackups` in the
TypeScript service and `rotateBackups` in the legacy `main.js`), archive
extraction with its strategy chain (`CompressionService.extractArchive`),
the compression progress emitter (`CompressionService.compressDirectory`),
the recursive tree copy (`BackupService.copyFolderRecursive`), the file
counter (`BackupService.countFilesInDirectory`), the backup/restore
orchestrator (`BackupService.performBackup` / `restoreBackup`) together
with the history store (`BackupHistoryService`), and the scheduler
(`SchedulerService`).  Filesystem reads, clocks and I/O outcomes are
passed in explicitly as data; machine numbers are modelled as `Int`/`Nat`.
-/

namespace WowBackup

/-- Milliseconds in one day, as used by both pruners (`24 * 60 * 60 * 1000`). -/
def dayMs : Int := 86400000

/-- A pruning candidate: a file name together with its `mtime` in epoch
milliseconds (`fs.stat(...).mtime.getTime()`). -/
structure Candidate where
  file : String
  date : Int
  deriving DecidableEq, Repr

/-- JavaScript `s.startsWith(p)`, expressed on the character list so it
evaluates inside proofs. -/
def strStartsWith (s p : String) : Bool :=
  p.data.isPrefixOf s.data

/-- JavaScript `s.endsWith(p)`, expressed on the character list so it
evaluates inside proofs. -/
def strEndsWith (s p : String) : Bool :=
  p.data.isSuffixOf s.data

/-- The backup-archive naming filter used by `cleanOldBackups`
(`f.startsWith('WoW-Backup-') && f.endsWith('.zip')`). -/
def isBackupFileName (f : String) : Bool :=
  strStartsWith f "WoW-Backup-" && strEndsWith f ".zip"

/-- JavaScript `config.backupRetention || 30`: an absent or zero (falsy)
retention is replaced by the default 30; any other value, including a
negative one, is kept. -/
def effectiveRetention (backupRetention : Option Int) : Int :=
  match backupRetention with
  | none => 30
  | some v => if v = 0 then 30 else v

/-- `BackupService.cleanOldBackups` (part_000, lines 333-375): list the
backup directory, keep the files matching the naming convention whose age
`now - mtime` is at most `retentionDays` days, and delete every older one.
The input list stands for the directory listing restricted to files whose
`stat` succeeded (a failed `stat` is logged and skipped).  Returns the
names kept and the names deleted. -/
def cleanOldBackups (files : List (String × Int)) (now : Int)
    (backupRetention : Option Int) : List String × List String :=
  let backupFiles := files.filter (fun f => isBackupFileName f.1)
  let maxAge := effectiveRetention backupRetention * dayMs
  ((backupFiles.filter (fun f => !decide (maxAge < now - f.2))).map Prod.fst,
   (backupFiles.filter (fun f => decide (maxAge < now - f.2))).map Prod.fst)

/-- Insert a candidate into a list sorted by date, newest first
(the effect of the JavaScript `backups.sort((a, b) => b.date - a.date)`). -/
def insertDesc (c : Candidate) : List Candidate → List Candidate
  | [] => [c]
  | x :: xs => if x.date ≤ c.date then c :: x :: xs else x :: insertDesc c xs

/-- Sort candidates by date, newest first. -/
def sortDesc (l : List Candidate) : List Candidate :=
  l.foldr insertDesc []

/-- Lookup in an association list keyed by month bucket
(JavaScript `Map.get`). -/
def alistGet (m : List (Int × Candidate)) (k : Int) : Option Candidate :=
  match m with
  | [] => none
  | (k2, c) :: rest => if k2 = k then some c else alistGet rest k

/-- Update-or-append in an association list (JavaScript `Map.set`:
replaces in place when the key is present, appends otherwise). -/
def alistSet (m : List (Int × Candidate)) (k : Int) (c : Candidate) :
    List (Int × Candidate) :=
  match m with
  | [] => [(k, c)]
  | (k2, c2) :: rest =>
    if k2 = k then (k, c) :: rest else (k2, c2) :: alistSet rest k c

/-- One step of the `monthlyKeepers` loop of `rotateBackups`: record `b`
as its month's keeper when the month is unseen or `b` is strictly newer
than the current keeper. -/
def updKeeper (monthKey : Int → Int) (m : List (Int × Candidate))
    (b : Candidate) : List (Int × Candidate) :=
  let k := monthKey b.date
  match alistGet m k with
  | none => alistSet m k b
  | some cur => if cur.date < b.date then alistSet m k b else m

/-- The fixed recency window of `rotateBackups`: `30 * 24 * 60 * 60 * 1000`. -/
def thirtyDaysMs : Int := 30 * 86400000

/-- The `backups` array of `rotateBackups`: the `.zip` files of the
destination directory, sorted newest first. -/
def rbSorted (backups0 : List Candidate) : List Candidate :=
  sortDesc (backups0.filter (fun b => strEndsWith b.file ".zip"))

/-- The `recentBackups` array of `rotateBackups`:
`backups.filter(b => b.date >= thirtyDaysAgo)`. -/
def rbRecent (now : Int) (backups : List Candidate) : List Candidate :=
  backups.filter (fun b => decide (now - thirtyDaysMs ≤ b.date))

/-- The `oldBackups` array of `rotateBackups`:
`backups.filter(b => b.date < thirtyDaysAgo)`. -/
def rbOld (now : Int) (backups : List Candidate) : List Candidate :=
  backups.filter (fun b => decide (b.date < now - thirtyDaysMs))

/-- The `monthlyKeepers` map of `rotateBackups`, built by folding the
replace-if-strictly-newer update over the old backups. -/
def rbKeepers (monthKey : Int → Int) (old : List Candidate) :
    List (Int × Candidate) :=
  old.foldl (updKeeper monthKey) []

/-- The `backupsToKeep` name set of `rotateBackups`: names of the recent
backups plus names of the monthly keepers. -/
def rbKeepNames (monthKey : Int → Int) (now : Int) (backups : List Candidate) :
    List String :=
  (rbRecent now backups).map Candidate.file ++
    (rbKeepers monthKey (rbOld now backups)).map (fun p => p.2.file)

/-- `rotateBackups` (main.js, lines 399-463): take the `.zip` files of the
destination directory with their mtimes, sort newest first, keep every
backup from the last 30 days (hard-coded window) plus, among the older
ones, the newest per `${date.getFullYear()}-${date.getMonth()}` bucket,
and remove the rest (removal tests membership of the file name in the
keep set).  The calendar bucket function is abstracted as `monthKey`.
Returns (kept, removed). -/
def rotateBackups (monthKey : Int → Int) (now : Int)
    (backups0 : List Candidate) : List Candidate × List Candidate :=
  let backups := rbSorted backups0
  let keepNames := rbKeepNames monthKey now backups
  (backups.filter (fun b => keepNames.contains b.file),
   backups.filter (fun b => !keepNames.contains b.file))

/-- Modelled from the spec: the Retention Pruner contract of section 4.3
(`prune(candidates, now, retentionDays)`), stated only to compare the
spec's claimed policy with the code's pruners.  A candidate is recent when
its age is at most `retentionDays` days; every recent candidate is kept,
and an old candidate is kept exactly when it is newest among the old
candidates of its month bucket. -/
def specPrune (monthKey : Int → Int) (candidates : List Candidate)
    (now retentionDays : Int) : List Candidate × List Candidate :=
  let isRecent : Candidate → Bool :=
    fun c => decide (now - c.date ≤ retentionDays * dayMs)
  let keepB : Candidate → Bool := fun c =>
    isRecent c ||
      candidates.all (fun c2 =>
        !decide (monthKey c2.date = monthKey c.date) || isRecent c2 ||
          decide (c2.date ≤ c.date))
  (candidates.filter keepB, candidates.filter (fun c => !keepB c))

/-! ### Archive extraction (`CompressionService.extractArchive`) -/

/-- Outcome of running one extraction strategy: it either throws, or it
completes and the subsequent `countExtractedFiles(outputDir)` check
observes `extractedCount` entries. -/
inductive MethodResult where
  | throws (msg : String)
  | completes (extractedCount : Nat)
  deriving DecidableEq, Repr

/-- The plausibility floor of `extractArchive`
(`if (extractedFileCount > 1000)`). -/
def extractionThreshold : Nat := 1000

/-- The strategy loop of `extractArchive` (compressionService.ts, lines
131-152): try each method in order; a method that throws is logged and
skipped; a method that completes succeeds the whole extraction exactly
when the observed entry count exceeds the floor; when no method clears
the floor the loop falls through to the exhaustion error. -/
def tryMethods : List MethodResult → Except String Unit
  | [] => .error "All extraction methods failed"
  | .throws _ :: rest => tryMethods rest
  | .completes n :: rest =>
    if extractionThreshold < n then .ok () else tryMethods rest

/-- `extractArchive` (compressionService.ts, lines 108-153): fail up front
when the archive path does not exist, otherwise run the strategy chain
(`yauzl`, `unzipper`, `7z` in the source; an arbitrary ordered list
here). -/
def extractArchive (archiveExists : Bool) (methods : List MethodResult) :
    Except String Unit :=
  if !archiveExists then .error "Archive not found"
  else tryMethods methods

/-- A strategy result that does not clear the plausibility floor: it
throws, or completes with at most `extractionThreshold` entries. -/
def underProduces : MethodResult → Prop
  | .throws _ => True
  | .completes n => n ≤ extractionThreshold

instance (r : MethodResult) : Decidable (underProduces r) := by
  cases r with
  | throws m => exact isTrue trivial
  | completes n => exact inferInstanceAs (Decidable (n ≤ extractionThreshold))

/-! ### Compression progress (`CompressionService.compressDirectory`) -/

/-- JavaScript `Math.round((p / total) * 100)` for non-negative `p` and
positive `total`: round half up, computed exactly on naturals as
`floor((200 * p + total) / (2 * total))`. -/
def jsRound100 (total p : Nat) : Nat := (200 * p + total) / (2 * total)

/-- The percentages delivered to the progress callback during one
`compressDirectory` call (compressionService.ts, lines 63-93): one
unclamped `Math.round((processedBytes / totalSize) * 100)` per archiver
`progress` event, followed by the fixed `100` emitted on stream close.
`processedSeq` is the sequence of `progress.fs.processedBytes` values
carried by the events. -/
def compressEmissions (totalSize : Nat) (processedSeq : List Nat) : List Nat :=
  processedSeq.map (jsRound100 totalSize) ++ [100]

/-! ### Filesystem trees, recursive copy and file counting -/

/-- A filesystem entry as seen by the copy and count loops.  A file
carries whether its `copyFile` would succeed; a directory carries whether
entering it (its `mkdir`/`readdir`) succeeds, plus its children. -/
inductive FsNode where
  | file (name : String) (copyOk : Bool)
  | dir (name : String) (readable : Bool) (children : List FsNode)

mutual
/-- Number of files `countFilesInDirectory` attributes to one entry:
a file counts one; a readable directory counts its children; a directory
whose `readdir` throws contributes zero (the error is caught and the
partial count, zero, is returned). -/
def countEntry : FsNode → Nat
  | .file _ _ => 1
  | .dir _ readable children => if readable then countChildren children else 0

/-- Sum of `countEntry` over a directory listing. -/
def countChildren : List FsNode → Nat
  | [] => 0
  | c :: rest => countEntry c + countChildren rest
end

/-- `BackupService.countFilesInDirectory` (part_000, lines 390-410): the
argument is the listing of the directory, or `none` when the directory
cannot be read (missing or unreadable), in which case the catch block
returns the count accumulated so far, zero. -/
def countFilesInDirectory : Option (List FsNode) → Nat
  | none => 0
  | some cs => countChildren cs

mutual
/-- Effect of the per-entry body of `copyFolderRecursive` on one entry,
as (names copied, names skipped with a warning).  A file whose copy
fails, or a subdirectory whose recursive copy rejects (its own
`mkdir`/`readdir` threw), is caught, logged and skipped; a readable
subdirectory contributes its own recursive result. -/
def copyEntry : FsNode → List String × List String
  | .file nm ok => if ok then ([nm], []) else ([], [nm])
  | .dir nm readable children =>
    if readable then copyChildren children else ([], [nm])

/-- The entry loop of `copyFolderRecursive` over a directory listing,
processed left to right. -/
def copyChildren : List FsNode → List String × List String
  | [] => ([], [])
  | c :: rest =>
    let a := copyEntry c
    let b := copyChildren rest
    (a.1 ++ b.1, a.2 ++ b.2)
end

/-- `BackupService.copyFolderRecursive` (part_000, lines 245-265): the
top-level `mkdir`/`readdir` are outside any try block, so an unreadable
source rejects to the caller; otherwise every per-entry failure is caught
inside the loop and the call resolves with the copied and skipped
names. -/
def copyFolderRecursive (source : FsNode) : Except String (List String × List String) :=
  match source with
  | .file nm _ => .error ("not a directory: " ++ nm)
  | .dir _ readable children =>
    if readable then .ok (copyChildren children) else .error "EACCES: readdir failed"

/-! ### Backup/restore orchestrator (`BackupService`) -/

/-- Trigger kind of a backup attempt. -/
inductive BackupType where
  | manual
  | scheduled
  deriving DecidableEq, Repr

/-- Outcome recorded in a history entry. -/
inductive BackupStatus where
  | completed
  | failed
  deriving DecidableEq, Repr

/-- The fields of a `BackupHistoryItem` that the orchestrator sets
(identifier, size and version bookkeeping omitted). -/
structure HistoryEntry where
  name : String
  btype : BackupType
  status : BackupStatus
  duration : Option Nat
  filesCount : Option Nat
  deriving DecidableEq, Repr

/-- Orchestrator state: the run-exclusivity flag `isRunning` and the
persisted history list, newest first. -/
structure OrchestratorState where
  isRunning : Bool
  history : List HistoryEntry
  deriving DecidableEq, Repr

/-- `BackupHistoryService` caps the stored history at the 100 most
recent entries. -/
def maxHistoryItems : Nat := 100

/-- `BackupHistoryService.addBackupEntry`: when the archive file exists
on disk, prepend a completed entry and trim to the cap; otherwise log a
warning and leave the history unchanged. -/
def addBackupEntry (archiveOnDisk : Bool) (e : HistoryEntry)
    (h : List HistoryEntry) : List HistoryEntry :=
  if archiveOnDisk then (e :: h).take maxHistoryItems else h

/-- `BackupHistoryService.addFailedBackupEntry`: prepend a failed entry
and trim to the cap. -/
def addFailedBackupEntry (e : HistoryEntry) (h : List HistoryEntry) :
    List HistoryEntry :=
  (e :: h).take maxHistoryItems

/-- External outcomes of one `performBackup` attempt: whether the staged
pipeline (validate, mkdir, copy, compress) ran to completion or threw
with `failMsg`, the elapsed duration, the archive file name, whether the
staging-directory removal succeeded, the staging directory contents left
behind when it did not, and whether the finished archive is on disk when
the history entry is added. -/
structure BackupRunEnv where
  stagesOk : Bool
  failMsg : String
  duration : Nat
  archiveName : String
  cleanupOk : Bool
  tempContents : List FsNode
  archiveOnDisk : Bool

/-- The completed-backup history entry `performBackup` records. -/
def mkCompletedEntry (env : BackupRunEnv) (btype : BackupType)
    (filesCount : Nat) : HistoryEntry :=
  ⟨env.archiveName, btype, .completed, some env.duration, some filesCount⟩

/-- The failed-backup history entry `performBackup` records. -/
def mkFailedEntry (name : String) (btype : BackupType) (duration : Nat) :
    HistoryEntry :=
  ⟨name, btype, .failed, some duration, none⟩

/-- `BackupService.performBackup` (part_000, lines 40-123).  If the run
lock is held the call throws `Backup is already running` at once and
changes nothing.  Otherwise the lock is taken; on success the staging
directory is removed (failure swallowed), old backups are cleaned
(failure swallowed), the file count is taken over the staging directory
after its removal, and a completed entry is recorded; on a stage
exception a failed entry with the elapsed duration is recorded and the
error is re-thrown.  The `finally` block clears the lock on both paths.
Returns the thrown error (if any) and the final state.  The history
service is always wired in by the application but is an optional
constructor argument, hence `hasHistoryService`. -/
def performBackup (hasHistoryService : Bool) (btype : BackupType)
    (env : BackupRunEnv) (s : OrchestratorState) :
    Option String × OrchestratorState :=
  if s.isRunning then
    (some "Backup is already running", s)
  else if env.stagesOk then
    let tempAfterCleanup : Option (List FsNode) :=
      if env.cleanupOk then none else some env.tempContents
    let filesCount := countFilesInDirectory tempAfterCleanup
    let history2 :=
      if hasHistoryService then
        addBackupEntry env.archiveOnDisk (mkCompletedEntry env btype filesCount) s.history
      else s.history
    (none, ⟨false, history2⟩)
  else
    let history2 :=
      if hasHistoryService then
        addFailedBackupEntry (mkFailedEntry env.archiveName btype env.duration) s.history
      else s.history
    (some env.failMsg, ⟨false, history2⟩)

/-- `BackupService.restoreBackup` (part_000, lines 125-186).  Same run
lock guard with the `Operation is already running` error; the restore
pipeline writes no history entry; the `finally` block clears the lock
whether the pipeline succeeds or throws. -/
def restoreBackup (backupFileExists : Bool) (restoreOk : Bool)
    (failMsg : String) (s : OrchestratorState) :
    Option String × OrchestratorState :=
  if s.isRunning then
    (some "Operation is already running", s)
  else if !backupFileExists then
    (some "Backup file not found", ⟨false, s.history⟩)
  else if restoreOk then
    (none, ⟨false, s.history⟩)
  else
    (some failMsg, ⟨false, s.history⟩)

/-! ### Scheduler (`SchedulerService`) -/

/-- The configured schedule unit (`scheduleUnit`); `other` stands for any
unrecognized string, which the code maps to the one-hour default. -/
inductive ScheduleUnit where
  | minutes
  | hours
  | days
  | other
  deriving DecidableEq, Repr

/-- The configuration fields the scheduler reads. -/
structure SchedulerConfig where
  schedulerEnabled : Bool
  scheduleInterval : Int
  scheduleUnit : ScheduleUnit
  deriving DecidableEq, Repr

/-- Scheduler state: the active flag, the cached next-run and in-memory
last-run times, and the last scheduled-backup time persisted through
`ConfigService.updateLastBackupTime`.  Times are epoch milliseconds. -/
structure SchedulerState where
  isActive : Bool
  nextRunTime : Option Int
  lastRunTime : Option Int
  persistedLastRun : Option Int
  deriving DecidableEq, Repr

/-- `SchedulerService.calculateIntervalMinutes`. -/
def calculateIntervalMinutes (interval : Int) (unit : ScheduleUnit) : Int :=
  match unit with
  | .minutes => interval
  | .hours => interval * 60
  | .days => interval * 60 * 24
  | .other => 60

/-- `SchedulerService.calculateAndSetNextRunTime` (lines 236-244): a
non-positive interval falls back to 60 minutes; the base time is the
in-memory last-run time when set, else now; the cached next-run time
becomes base + interval. -/
def calculateAndSetNextRunTime (intervalMinutes now : Int)
    (s : SchedulerState) : SchedulerState :=
  let im := if intervalMinutes ≤ 0 then 60 else intervalMinutes
  let base := s.lastRunTime.getD now
  { s with nextRunTime := some (base + im * 60000) }

/-- `SchedulerService.start` (lines 32-95) restricted to its state
effect: no-op when already active or disabled or the interval is not
positive; otherwise the active flag is set and the next-run time is
computed by `calculateAndSetNextRunTime` (the cron-versus-fallback
choice does not change this computation). -/
def startScheduler (cfg : SchedulerConfig) (now : Int) (s : SchedulerState) :
    SchedulerState :=
  if s.isActive then s
  else if !cfg.schedulerEnabled then s
  else
    let im := calculateIntervalMinutes cfg.scheduleInterval cfg.scheduleUnit
    if im ≤ 0 then s
    else calculateAndSetNextRunTime im now { s with isActive := true }

/-- `SchedulerService.stop` (lines 97-118): no-op with a warning when not
active; otherwise cancel the timers and clear the active flag and the
next-run and last-run times. -/
def stopScheduler (s : SchedulerState) : SchedulerState :=
  if !s.isActive then s
  else { s with isActive := false, nextRunTime := none, lastRunTime := none }

/-- `SchedulerService.getNextRunTime` (lines 129-140): when the cached
next-run time is absent and the scheduler is active, recompute it with
`calculateAndSetNextRunTime` (the primary trigger is not consulted on
this path); return the cached value.  Returns the value and the updated
state. -/
def getNextRunTime (cfg : SchedulerConfig) (now : Int) (s : SchedulerState) :
    Option Int × SchedulerState :=
  if s.nextRunTime.isNone && s.isActive then
    let s2 := calculateAndSetNextRunTime
      (calculateIntervalMinutes cfg.scheduleInterval cfg.scheduleUnit) now s
    (s2.nextRunTime, s2)
  else (s.nextRunTime, s)

/-- `SchedulerService.updateNextRunTime` (lines 205-234): prefer the
primary trigger's next invocation when a job exists and reports a valid
date (`jobNext`); otherwise recompute from the configured interval. -/
def updateNextRunTime (jobNext : Option Int) (cfg : SchedulerConfig)
    (now : Int) (s : SchedulerState) : SchedulerState :=
  match jobNext with
  | some t => { s with nextRunTime := some t }
  | none => calculateAndSetNextRunTime
      (calculateIntervalMinutes cfg.scheduleInterval cfg.scheduleUnit) now s

/-- `SchedulerService.executeBackup` (lines 246-267), the fire handler:
set the in-memory last-run time, run the scheduled backup, persist the
last-run time to config only on success, swallow and log a backup error,
then recompute the next-run time.  `runError` is the orchestrator's
outcome; the handler itself always resolves. -/
def executeBackup (runError : Option String) (jobNext : Option Int)
    (cfg : SchedulerConfig) (now : Int) (s : SchedulerState) :
    Except String SchedulerState :=
  let s1 := { s with lastRunTime := some now }
  let s2 :=
    match runError with
    | none => { s1 with persistedLastRun := some now }
    | some _ => s1
  .ok (updateNextRunTime jobNext cfg now s2)

/-! ## Lemmas about the extraction strategy chain -/

/-- The strategy loop succeeds exactly when some strategy completes with
an entry count above the plausibility floor. -/
theorem tryMethods_eq_ok_iff (ms : List MethodResult) :
    tryMethods ms = .ok () ↔
      ∃ n, MethodResult.completes n ∈ ms ∧ extractionThreshold < n := by
  induction ms with
  | nil => simp [tryMethods]
  | cons r rest ih =>
    cases r with
    | throws m =>
      simp only [tryMethods, ih]
      constructor
      · rintro ⟨n, hn, h⟩
        exact ⟨n, by simp [hn], h⟩
      · rintro ⟨n, hn, h⟩
        rcases List.mem_cons.mp hn with h1 | h1
        · cases h1
        · exact ⟨n, h1, h⟩
    | completes n =>
      by_cases h : extractionThreshold < n
      · simp [tryMethods, h]
      · simp only [tryMethods, if_neg h, ih]
        constructor
        · rintro ⟨k, hk, hlt⟩
          exact ⟨k, by simp [hk], hlt⟩
        · rintro ⟨k, hk, hlt⟩
          rcases List.mem_cons.mp hk with h1 | h1
          · cases h1; exact absurd hlt h
          · exact ⟨k, h1, hlt⟩

/-- The strategy loop falls through to the exhaustion error exactly when
every strategy throws or under-produces. -/
theorem tryMethods_eq_error_iff (ms : List MethodResult) :
    tryMethods ms = .error "All extraction methods failed" ↔
      ∀ r ∈ ms, underProduces r := by
  induction ms with
  | nil => simp [tryMethods]
  | cons r rest ih =>
    cases r with
    | throws m => simp [tryMethods, ih, underProduces]
    | completes n =>
      by_cases h : extractionThreshold < n
      · simp [tryMethods, h, underProduces]
      · simp [tryMethods, h, underProduces, not_lt.mp h, ih]

/-- C4: `extractArchive` fails immediately when the archive path does not
exist; otherwise it tries the ordered strategies, advancing past a
strategy exactly when it throws or its extracted-entry count does not
exceed the floor of 1000, returning as soon as one strategy clears the
floor (later strategies untouched), and raising the exhaustion error
exactly when every strategy fails or under-produces. -/
theorem extractArchive_strategy_chain (ms rest : List MethodResult)
    (n : Nat) (msg : String) :
    extractArchive false ms = .error "Archive not found" ∧
    tryMethods (.throws msg :: rest) = tryMethods rest ∧
    (extractionThreshold < n → tryMethods (.completes n :: rest) = .ok ()) ∧
    (n ≤ extractionThreshold →
      tryMethods (.completes n :: rest) = tryMethods rest) ∧
    (extractArchive true ms = .ok () ↔
      ∃ k, MethodResult.completes k ∈ ms ∧ extractionThreshold < k) ∧
    (extractArchive true ms = .error "All extraction methods failed" ↔
      ∀ r ∈ ms, underProduces r) := by
  refine ⟨rfl, rfl, ?_, ?_, ?_, ?_⟩
  · intro h
    simp [tryMethods, h]
  · intro h
    simp [tryMethods, not_lt.mpr h]
  · simpa [extractArchive] using tryMethods_eq_ok_iff ms
  · simpa [extractArchive] using tryMethods_eq_error_iff ms

/-- Witness for C4 at concrete inputs: a 2000-entry strategy clears the
floor at once, and a 5-entry strategy is skipped. -/
theorem extractArchive_strategy_chain_witness :
    tryMethods [.completes 2000] = .ok () ∧
    tryMethods [.completes 5, .completes 2000] = tryMethods [.completes 2000] := by
  constructor
  · exact (extractArchive_strategy_chain [] [] 2000 "e").2.2.1 (by decide)
  · exact (extractArchive_strategy_chain [] [.completes 2000] 5 "e").2.2.2.1 (by decide)

/-! ## Lemmas about the recursive copy -/

/-- The entry loop treats a concatenation of listings independently:
results are concatenated, so no entry's outcome influences another's. -/
theorem copyChildren_append (xs ys : List FsNode) :
    copyChildren (xs ++ ys) =
      ((copyChildren xs).1 ++ (copyChildren ys).1,
       (copyChildren xs).2 ++ (copyChildren ys).2) := by
  induction xs with
  | nil => simp [copyChildren]
  | cons c rest ih => simp [copyChildren, ih]

/-- C9: `copyFolderRecursive` on a readable source always resolves (it
never rejects because of entries), and a failing file in the middle of a
listing is recorded as skipped while every entry before and after it is
still processed, with unchanged results. -/
theorem copyFolderRecursive_skips_bad_entries
    (nm bad : String) (children xs ys : List FsNode) :
    copyFolderRecursive (.dir nm true children) = .ok (copyChildren children) ∧
    copyChildren (xs ++ .file bad false :: ys) =
      ((copyChildren xs).1 ++ (copyChildren ys).1,
       (copyChildren xs).2 ++ bad :: (copyChildren ys).2) ∧
    copyChildren (xs ++ .dir bad false children :: ys) =
      ((copyChildren xs).1 ++ (copyChildren ys).1,
       (copyChildren xs).2 ++ bad :: (copyChildren ys).2) := by
  refine ⟨rfl, ?_, ?_⟩
  · rw [copyChildren_append]
    simp [copyChildren, copyEntry]
  · rw [copyChildren_append]
    simp [copyChildren, copyEntry]

/-! ## Lemmas about the orchestrator -/

/-- C2: while an operation is in flight (`isRunning`), a new
`performBackup` or `restoreBackup` call fails immediately with the
already-running error and leaves the state — including the history —
untouched; once a run that did start finishes, successfully or not, the
lock is released. -/
theorem runLock_guards_and_releases (hasH : Bool) (btype : BackupType)
    (env : BackupRunEnv) (bfe rok : Bool) (fm : String)
    (s : OrchestratorState) :
    (s.isRunning = true →
      performBackup hasH btype env s = (some "Backup is already running", s) ∧
      restoreBackup bfe rok fm s = (some "Operation is already running", s)) ∧
    (s.isRunning = false →
      (performBackup hasH btype env s).2.isRunning = false ∧
      (restoreBackup bfe rok fm s).2.isRunning = false) := by
  constructor
  · intro h
    constructor
    · simp [performBackup, h]
    · simp [restoreBackup, h]
  · intro h
    constructor
    · by_cases hst : env.stagesOk <;> simp [performBackup, h, hst]
    · by_cases hb : bfe <;> by_cases hr : rok <;> simp [restoreBackup, h, hb, hr]

/-- Witness for C2: with the lock held both entry points reject and
change nothing; with the lock free the lock is clear again after the
call. -/
theorem runLock_guards_and_releases_witness :
    (performBackup true .manual ⟨true, "boom", 7, "WoW-Backup-x.zip", true, [], true⟩
        ⟨true, []⟩ = (some "Backup is already running", ⟨true, []⟩) ∧
      restoreBackup true true "fail" ⟨true, []⟩ =
        (some "Operation is already running", ⟨true, []⟩)) ∧
    ((performBackup true .manual ⟨true, "boom", 7, "WoW-Backup-x.zip", true, [], true⟩
        ⟨false, []⟩).2.isRunning = false ∧
      (restoreBackup true true "fail" ⟨false, []⟩).2.isRunning = false) := by
  constructor
  · exact (runLock_guards_and_releases true .manual
      ⟨true, "boom", 7, "WoW-Backup-x.zip", true, [], true⟩ true true "fail"
      ⟨true, []⟩).1 rfl
  · exact (runLock_guards_and_releases true .manual
      ⟨true, "boom", 7, "WoW-Backup-x.zip", true, [], true⟩ true true "fail"
      ⟨false, []⟩).2 rfl

/-- C3: when a stage of a backup attempt throws, the orchestrator records
a failed history entry carrying the elapsed duration, releases the run
lock, and re-throws the error to the caller. -/
theorem performBackup_failure_records_and_rethrows (btype : BackupType)
    (env : BackupRunEnv) (s : OrchestratorState)
    (hfree : s.isRunning = false) (hfail : env.stagesOk = false) :
    performBackup true btype env s =
      (some env.failMsg,
       ⟨false, (mkFailedEntry env.archiveName btype env.duration :: s.history).take
          maxHistoryItems⟩) ∧
    (performBackup true btype env s).2.history.head? =
      some (mkFailedEntry env.archiveName btype env.duration) ∧
    (mkFailedEntry env.archiveName btype env.duration).status = .failed ∧
    (mkFailedEntry env.archiveName btype env.duration).duration = some env.duration := by
  refine ⟨?_, ?_, rfl, rfl⟩
  · simp [performBackup, hfree, hfail, addFailedBackupEntry]
  · simp [performBackup, hfree, hfail, addFailedBackupEntry, maxHistoryItems]

/-- Witness for C3: a concrete failed attempt yields the failed entry at
the head of the history and re-throws the message. -/
theorem performBackup_failure_records_and_rethrows_witness :
    performBackup true .scheduled ⟨false, "copy failed", 42, "WoW-Backup-x.zip", true, [], true⟩
        ⟨false, []⟩ =
      (some "copy failed",
       ⟨false, [mkFailedEntry "WoW-Backup-x.zip" .scheduled 42]⟩) := by
  have h := performBackup_failure_records_and_rethrows .scheduled
    ⟨false, "copy failed", 42, "WoW-Backup-x.zip", true, [], true⟩ ⟨false, []⟩ rfl rfl
  exact h.1

/-- C10: on a successful backup whose staging-directory cleanup
succeeded, the history entry's file count is 0, because the count is
taken over the staging directory only after its removal and
`countFilesInDirectory` returns 0 for a directory it cannot read. -/
theorem performBackup_filesCount_zero_after_cleanup (btype : BackupType)
    (env : BackupRunEnv) (s : OrchestratorState)
    (hfree : s.isRunning = false) (hok : env.stagesOk = true)
    (hclean : env.cleanupOk = true) (hdisk : env.archiveOnDisk = true) :
    (performBackup true btype env s).2.history.head? =
      some (mkCompletedEntry env btype 0) ∧
    (mkCompletedEntry env btype 0).filesCount = some 0 ∧
    countFilesInDirectory none = 0 := by
  refine ⟨?_, rfl, rfl⟩
  simp [performBackup, hfree, hok, hclean, hdisk, addBackupEntry,
    countFilesInDirectory, maxHistoryItems]

/-- Witness for C10: a concrete successful backup records a zero file
count even though the staging tree held files before cleanup. -/
theorem performBackup_filesCount_zero_after_cleanup_witness :
    (performBackup true .manual
        ⟨true, "", 42, "WoW-Backup-x.zip", true, [.file "a.lua" true], true⟩
        ⟨false, []⟩).2.history.head? =
      some (mkCompletedEntry
        ⟨true, "", 42, "WoW-Backup-x.zip", true, [.file "a.lua" true], true⟩ .manual 0) := by
  have h := performBackup_filesCount_zero_after_cleanup .manual
    ⟨true, "", 42, "WoW-Backup-x.zip", true, [.file "a.lua" true], true⟩
    ⟨false, []⟩ rfl rfl rfl rfl
  exact h.1

/-! ## Lemmas about compression progress -/

/-- The rounded percentage stays at most 100 while the processed counter
has not overtaken the total size. -/
theorem jsRound100_le_100 {total p : Nat} (ht : 0 < total) (hp : p ≤ total) :
    jsRound100 total p ≤ 100 := by
  unfold jsRound100
  calc (200 * p + total) / (2 * total)
      ≤ (200 * total + total) / (2 * total) :=
        Nat.div_le_div_right (Nat.add_le_add_right (Nat.mul_le_mul_left 200 hp) total)
    _ = 100 := by
        apply Nat.div_eq_of_lt_le <;> omega

/-- The rounded percentage is monotone in the processed counter. -/
theorem jsRound100_mono (total : Nat) {p q : Nat} (hpq : p ≤ q) :
    jsRound100 total p ≤ jsRound100 total q :=
  Nat.div_le_div_right (Nat.add_le_add_right (Nat.mul_le_mul_left 200 hpq) total)

/-- Counterexample to C5: `compressDirectory` emits the rounded ratio
without clamping, so when the archiver processes more bytes than the
best-effort size scan counted (total 1, processed 2) the caller observes
the percentage 200, outside [0,100], followed by the final 100 — a
decreasing step. -/
theorem compressEmissions_counterexample :
    compressEmissions 1 [2] = [200, 100] ∧
    (200 ∈ compressEmissions 1 [2] ∧ ¬(200 ≤ 100)) ∧
    ¬ List.Chain' (fun a b : Nat => a ≤ b) (compressEmissions 1 [2]) := by
  refine ⟨rfl, ⟨by decide, by decide⟩, ?_⟩
  have he : compressEmissions 1 [2] = [200, 100] := rfl
  rw [he]
  simp [List.chain'_cons]

/-- The emitted sequence is a chain under the claimed hypotheses; helper
for the amended C5. -/
theorem compressEmissions_chain (total : Nat) (ht : 0 < total) :
    ∀ seq : List Nat, (∀ p ∈ seq, p ≤ total) →
      List.Chain' (fun a b : Nat => a ≤ b) seq →
      List.Chain' (fun a b : Nat => a ≤ b) (compressEmissions total seq) := by
  intro seq
  induction seq with
  | nil =>
    intro _ _
    simp [compressEmissions]
  | cons p rest ih =>
    intro hb hm
    cases rest with
    | nil =>
      simp only [compressEmissions, List.map_cons, List.map_nil,
        List.nil_append, List.cons_append, List.chain'_cons,
        List.chain'_singleton, and_true]
      exact jsRound100_le_100 ht (hb p (by simp))
    | cons q rest2 =>
      have hpq : p ≤ q := (List.chain'_cons.mp hm).1
      have htl : List.Chain' (fun a b : Nat => a ≤ b) (q :: rest2) :=
        (List.chain'_cons.mp hm).2
      have hb2 : ∀ x ∈ q :: rest2, x ≤ total := by
        intro x hx
        exact hb x (List.mem_cons_of_mem p hx)
      have hrest := ih hb2 htl
      simp only [compressEmissions, List.map_cons, List.cons_append,
        List.chain'_cons] at hrest ⊢
      exact ⟨jsRound100_mono total hpq, hrest⟩

/-- Amended C5: within one compress operation, provided the size scan's
total is positive, the archiver's processed counter is non-decreasing and
never exceeds the total, every emitted percentage lies in [0,100] and the
emitted sequence (including the final 100) is monotonically
non-decreasing. -/
theorem compressEmissions_monotone_in_range (total : Nat) (seq : List Nat)
    (ht : 0 < total) (hb : ∀ p ∈ seq, p ≤ total)
    (hm : List.Chain' (fun a b : Nat => a ≤ b) seq) :
    (∀ x ∈ compressEmissions total seq, x ≤ 100) ∧
    List.Chain' (fun a b : Nat => a ≤ b) (compressEmissions total seq) := by
  constructor
  · intro x hx
    rcases List.mem_append.mp hx with hx | hx
    · rcases List.mem_map.mp hx with ⟨p, hp, rfl⟩
      exact jsRound100_le_100 ht (hb p hp)
    · simp only [List.mem_singleton] at hx
      omega
  · exact compressEmissions_chain total ht seq hb hm

/-- Witness for the amended C5: with total 4 and processed 1, 2, 4 the
emissions are 25, 50, 100, 100 — in range and non-decreasing. -/
theorem compressEmissions_monotone_in_range_witness :
    (∀ x ∈ compressEmissions 4 [1, 2, 4], x ≤ 100) ∧
    List.Chain' (fun a b : Nat => a ≤ b) (compressEmissions 4 [1, 2, 4]) :=
  compressEmissions_monotone_in_range 4 [1, 2, 4] (by decide) (by decide)
    (by norm_num [List.chain'_cons])

/-! ## Lemmas about the scheduler -/

/-- Counterexample to C6: the recomputation bases the next-run time on
the persisted last-run time, so after `start()` with a 90-minute interval
and a stale last-run time (epoch 0, loaded from config at construction)
the scheduler is Running yet `getNextRunTime()` returns epoch 5400000,
far in the past of `now` = 10000000000. -/
theorem scheduler_nextRun_in_past_counterexample :
    (startScheduler ⟨true, 90, .minutes⟩ 10000000000
        ⟨false, none, some 0, none⟩).isActive = true ∧
    (getNextRunTime ⟨true, 90, .minutes⟩ 10000000000
        (startScheduler ⟨true, 90, .minutes⟩ 10000000000
          ⟨false, none, some 0, none⟩)).1 = some 5400000 ∧
    (5400000 : Int) < 10000000000 := by
  refine ⟨rfl, rfl, by norm_num⟩

/-- Amended C6: while Running, `getNextRunTime()` always returns a
non-null time; when the cached value is absent it is recomputed as
last-run + interval when a last-run time is recorded, else now + interval
(the primary trigger is not consulted on this path).  After `start()`
with a 90-minute interval and no recorded last-run time the next-run time
is exactly now + 90 minutes, strictly greater than now and at most
now + 91 minutes; with a recorded last-run time it is last-run + 90
minutes, which can lie in the past.  After `stop()` of a running
scheduler, `getNextRunTime()` returns null. -/
theorem getNextRunTime_amended :
    (∀ (cfg : SchedulerConfig) (now : Int) (s : SchedulerState),
      s.isActive = true → ((getNextRunTime cfg now s).1).isSome = true) ∧
    (∀ (cfg : SchedulerConfig) (now : Int) (s : SchedulerState),
      s.isActive = true → s.nextRunTime = none →
      0 < calculateIntervalMinutes cfg.scheduleInterval cfg.scheduleUnit →
      (getNextRunTime cfg now s).1 =
        some (s.lastRunTime.getD now +
          calculateIntervalMinutes cfg.scheduleInterval cfg.scheduleUnit * 60000)) ∧
    (∀ (cfg : SchedulerConfig) (now : Int) (s : SchedulerState),
      s.isActive = false → s.lastRunTime = none →
      cfg.schedulerEnabled = true → cfg.scheduleInterval = 90 →
      cfg.scheduleUnit = .minutes →
      (startScheduler cfg now s).nextRunTime = some (now + 5400000) ∧
      now < now + 5400000 ∧ now + 5400000 ≤ now + 91 * 60000) ∧
    (∀ (cfg : SchedulerConfig) (now : Int) (s : SchedulerState),
      s.isActive = true → (getNextRunTime cfg now (stopScheduler s)).1 = none) := by
  refine ⟨?_, ?_, ?_, ?_⟩
  · intro cfg now s h
    cases hnx : s.nextRunTime with
    | none => simp [getNextRunTime, calculateAndSetNextRunTime, hnx, h]
    | some t => simp [getNextRunTime, hnx, h]
  · intro cfg now s h hnx him
    have : ¬ calculateIntervalMinutes cfg.scheduleInterval cfg.scheduleUnit ≤ 0 :=
      not_le.mpr him
    simp [getNextRunTime, calculateAndSetNextRunTime, hnx, h, this]
  · intro cfg now s h hlast hen hint hunit
    refine ⟨?_, by omega, by omega⟩
    simp [startScheduler, h, hen, hint, hunit, calculateIntervalMinutes,
      calculateAndSetNextRunTime, hlast]
  · intro cfg now s h
    simp [stopScheduler, h, getNextRunTime]

/-- Witness for the amended C6 at concrete states: a fresh active state
recomputes now + interval; a fresh start lands in (now, now + 91 min];
stop clears the next-run time. -/
theorem getNextRunTime_amended_witness :
    ((getNextRunTime ⟨true, 90, .minutes⟩ 5 ⟨true, none, none, none⟩).1).isSome = true ∧
    (getNextRunTime ⟨true, 90, .minutes⟩ 5 ⟨true, none, none, none⟩).1 =
      some (5 + 90 * 60000) ∧
    ((startScheduler ⟨true, 90, .minutes⟩ 5 ⟨false, none, none, none⟩).nextRunTime =
        some (5 + 5400000) ∧
      (5 : Int) < 5 + 5400000 ∧ (5 : Int) + 5400000 ≤ 5 + 91 * 60000) ∧
    (getNextRunTime ⟨true, 90, .minutes⟩ 7 (stopScheduler ⟨true, some 99, some 1, none⟩)).1 =
      none := by
  have h := getNextRunTime_amended
  refine ⟨h.1 ⟨true, 90, .minutes⟩ 5 ⟨true, none, none, none⟩ rfl, ?_,
    h.2.2.1 ⟨true, 90, .minutes⟩ 5 ⟨false, none, none, none⟩ rfl rfl rfl rfl rfl,
    h.2.2.2 ⟨true, 90, .minutes⟩ 7 ⟨true, some 99, some 1, none⟩ rfl⟩
  have h2 := h.2.1 ⟨true, 90, .minutes⟩ 5 ⟨true, none, none, none⟩ rfl rfl
    (by norm_num [calculateIntervalMinutes])
  simpa [calculateIntervalMinutes] using h2

/-- Counterexample to C7: on a scheduled fire whose backup run fails, the
fire handler resolves (the error is swallowed) and the next-run time is
recomputed, but the last-run time is not persisted to config — the
persisted slot stays empty. -/
theorem executeBackup_no_persist_on_failure :
    executeBackup (some "backup failed") none ⟨true, 90, .minutes⟩ 1000
        ⟨true, none, none, none⟩ =
      .ok ⟨true, some 5401000, some 1000, none⟩ ∧
    (SchedulerState.mk true (some 5401000) (some 1000) none).persistedLastRun = none := by
  exact ⟨rfl, rfl⟩

/-- Amended C7: the fire handler always resolves — a backup error never
propagates out of it and the active flag is untouched, so future fires
stay scheduled; on every fire the in-memory last-run time is set and the
next-run time recomputed to a non-null value; the last-run time is
persisted to config only when the run succeeds. -/
theorem executeBackup_swallows_errors (runError : Option String)
    (jobNext : Option Int) (cfg : SchedulerConfig) (now : Int)
    (s : SchedulerState) :
    ∃ s2, executeBackup runError jobNext cfg now s = .ok s2 ∧
      s2.lastRunTime = some now ∧
      s2.nextRunTime.isSome = true ∧
      s2.persistedLastRun =
        (if runError.isNone then some now else s.persistedLastRun) ∧
      s2.isActive = s.isActive := by
  refine ⟨_, rfl, ?_, ?_, ?_, ?_⟩ <;>
    cases runError <;> cases jobNext <;>
      simp [executeBackup, updateNextRunTime, calculateAndSetNextRunTime]

/-! ## Lemmas about retention pruning -/

/-- Counterexample to C8: with a configured retention of 0 the claim says
nothing is recent and only the newest archive per month survives, but
`cleanOldBackups` replaces the falsy 0 with the default 30-day window and
keeps both same-month archives aged 1 and 2 days, removing nothing. -/
theorem cleanOldBackups_zero_retention_counterexample :
    cleanOldBackups
        [("WoW-Backup-a.zip", 99 * 86400000), ("WoW-Backup-b.zip", 98 * 86400000)]
        (100 * 86400000) (some 0) =
      (["WoW-Backup-a.zip", "WoW-Backup-b.zip"], []) ∧
    (specPrune (fun _ => 0)
        [⟨"WoW-Backup-a.zip", 99 * 86400000⟩, ⟨"WoW-Backup-b.zip", 98 * 86400000⟩]
        (100 * 86400000) 0).1 =
      [⟨"WoW-Backup-a.zip", 99 * 86400000⟩] := by
  constructor
  · decide
  · decide

/-- Amended C8: in `cleanOldBackups` a configured retention of 0 is falsy
and behaves exactly like the default 30; a negative retention makes the
age cutoff negative, so every matching candidate of non-negative age is
removed — in neither case is any monthly roll-up applied. -/
theorem cleanOldBackups_retention_defaults :
    (∀ (files : List (String × Int)) (now : Int),
      cleanOldBackups files now (some 0) = cleanOldBackups files now (some 30)) ∧
    (∀ (files : List (String × Int)) (now r : Int) (nm : String) (t : Int),
      r < 0 → (nm, t) ∈ files → isBackupFileName nm = true → 0 ≤ now - t →
      nm ∈ (cleanOldBackups files now (some r)).2) := by
  constructor
  · intro files now
    simp [cleanOldBackups, effectiveRetention]
  · intro files now r nm t hr hmem hname hage
    have h1 : effectiveRetention (some r) = r := by
      simp only [effectiveRetention]
      rw [if_neg (by omega : ¬ r = 0)]
    have hmax : effectiveRetention (some r) * dayMs < now - t := by
      rw [h1]
      have hd : (0 : Int) < dayMs := by norm_num [dayMs]
      have hneg : r * dayMs < 0 := mul_neg_of_neg_of_pos hr hd
      exact lt_of_lt_of_le hneg hage
    simp only [cleanOldBackups]
    apply List.mem_map.mpr
    refine ⟨(nm, t), ?_, rfl⟩
    apply List.mem_filter.mpr
    exact ⟨List.mem_filter.mpr ⟨hmem, by simpa using hname⟩, by simpa using hmax⟩

/-- Witness for the amended C8: retention 0 coincides with retention 30
on a concrete listing, and retention -1 removes a 15-ms-old archive. -/
theorem cleanOldBackups_retention_defaults_witness :
    cleanOldBackups [("WoW-Backup-a.zip", 5)] 20 (some 0) =
      cleanOldBackups [("WoW-Backup-a.zip", 5)] 20 (some 30) ∧
    "WoW-Backup-a.zip" ∈ (cleanOldBackups [("WoW-Backup-a.zip", 5)] 20 (some (-1))).2 := by
  refine ⟨cleanOldBackups_retention_defaults.1 [("WoW-Backup-a.zip", 5)] 20, ?_⟩
  exact cleanOldBackups_retention_defaults.2 [("WoW-Backup-a.zip", 5)] 20 (-1)
    "WoW-Backup-a.zip" 5 (by norm_num) (by simp) (by decide) (by norm_num)

/-- Counterexample to C1: `cleanOldBackups` applies the age window only.
A single 100-day-old archive is the newest of its (single) month bucket,
so the claimed policy keeps it, but the code deletes it. -/
theorem cleanOldBackups_no_monthly_rollup_counterexample :
    cleanOldBackups [("WoW-Backup-a.zip", 0)] (100 * 86400000) (some 30) =
      ([], ["WoW-Backup-a.zip"]) ∧
    (specPrune (fun _ => 0) [⟨"WoW-Backup-a.zip", 0⟩] (100 * 86400000) 30).1 =
      [⟨"WoW-Backup-a.zip", 0⟩] := by
  constructor
  · decide
  · decide

/-! ### Sorting of candidates -/

/-- Descending insertion permutes the inserted element to the front. -/
theorem insertDesc_perm (c : Candidate) (l : List Candidate) :
    List.Perm (insertDesc c l) (c :: l) := by
  induction l with
  | nil => exact List.Perm.refl _
  | cons x xs ih =>
    simp only [insertDesc]
    by_cases h : x.date ≤ c.date
    · rw [if_pos h]
    · rw [if_neg h]
      exact (List.Perm.cons x ih).trans (List.Perm.swap c x xs)

/-- The descending sort is a permutation of its input. -/
theorem sortDesc_perm (l : List Candidate) : List.Perm (sortDesc l) l := by
  induction l with
  | nil => exact List.Perm.refl _
  | cons x xs ih =>
    show (insertDesc x (List.foldr insertDesc [] xs)).Perm (x :: xs)
    exact (insertDesc_perm x (List.foldr insertDesc [] xs)).trans
      (List.Perm.cons x ih)

/-- Membership is unchanged by the descending sort. -/
theorem mem_sortDesc {c : Candidate} {l : List Candidate} :
    c ∈ sortDesc l ↔ c ∈ l :=
  (sortDesc_perm l).mem_iff

/-! ### Association-list facts for the monthly keeper map -/

/-- A lookup misses exactly when no entry bears the key. -/
theorem alistGet_eq_none_iff (m : List (Int × Candidate)) (k : Int) :
    alistGet m k = none ↔ ∀ p ∈ m, p.1 ≠ k := by
  induction m with
  | nil => simp [alistGet]
  | cons p rest ih =>
    obtain ⟨k2, c⟩ := p
    by_cases h : k2 = k <;> simp [alistGet, h, ih]

/-- A successful lookup returns an entry of the list. -/
theorem alistGet_mem {m : List (Int × Candidate)} {k : Int} {c : Candidate}
    (h : alistGet m k = some c) : (k, c) ∈ m := by
  induction m with
  | nil => simp [alistGet] at h
  | cons p rest ih =>
    obtain ⟨k2, c2⟩ := p
    by_cases hk : k2 = k
    · subst hk
      simp [alistGet] at h
      subst h
      exact List.mem_cons_self _ _
    · simp [alistGet, hk] at h
      exact List.mem_cons_of_mem _ (ih h)

/-- Setting an absent key appends the new entry. -/
theorem alistSet_of_get_none {m : List (Int × Candidate)} {k : Int}
    (h : alistGet m k = none) (c : Candidate) :
    alistSet m k c = m ++ [(k, c)] := by
  induction m with
  | nil => rfl
  | cons p rest ih =>
    obtain ⟨k2, c2⟩ := p
    by_cases hk : k2 = k
    · subst hk
      simp [alistGet] at h
    · simp [alistGet, hk] at h
      simp [alistSet, hk, ih h]

/-- Setting a present key leaves the key sequence unchanged. -/
theorem keys_alistSet_of_get_some {m : List (Int × Candidate)} {k : Int}
    {cur : Candidate} (h : alistGet m k = some cur) (c : Candidate) :
    (alistSet m k c).map Prod.fst = m.map Prod.fst := by
  induction m with
  | nil => simp [alistGet] at h
  | cons p rest ih =>
    obtain ⟨k2, c2⟩ := p
    by_cases hk : k2 = k
    · subst hk
      simp [alistSet]
    · simp [alistGet, hk] at h
      simp [alistSet, hk, ih h]

/-- Under unique keys, a list entry is what lookup of its key returns. -/
theorem alistGet_of_mem {m : List (Int × Candidate)}
    (hnd : (m.map Prod.fst).Nodup) {p : Int × Candidate} (hp : p ∈ m) :
    alistGet m p.1 = some p.2 := by
  induction m with
  | nil => cases hp
  | cons q rest ih =>
    obtain ⟨k2, c2⟩ := q
    rcases List.mem_cons.mp hp with rfl | hp2
    · simp [alistGet]
    · have hk : k2 ≠ p.1 := by
        intro he
        have : p.1 ∈ rest.map Prod.fst := List.mem_map_of_mem Prod.fst hp2
        rw [← he] at this
        exact (List.nodup_cons.mp (by simpa using hnd)).1 this
      simp only [alistGet, if_neg hk]
      exact ih (List.nodup_cons.mp (by simpa using hnd)).2 hp2

/-- Under unique keys, setting a present key replaces exactly that
key's entry. -/
theorem mem_alistSet_of_get_some (k : Int) (cur c : Candidate)
    (p : Int × Candidate) :
    ∀ m : List (Int × Candidate), (m.map Prod.fst).Nodup →
      alistGet m k = some cur →
      (p ∈ alistSet m k c ↔ p = (k, c) ∨ (p ∈ m ∧ p.1 ≠ k)) := by
  intro m
  induction m with
  | nil =>
    intro _ hget
    simp [alistGet] at hget
  | cons q rest ih =>
    intro hnd hget
    obtain ⟨k2, c2⟩ := q
    by_cases hk : k2 = k
    · subst hk
      simp only [alistSet, if_pos rfl]
      have hknotin : k2 ∉ rest.map Prod.fst :=
        (List.nodup_cons.mp (by simpa using hnd)).1
      constructor
      · intro hin
        rcases List.mem_cons.mp hin with rfl | hin2
        · exact Or.inl rfl
        · refine Or.inr ⟨List.mem_cons_of_mem _ hin2, ?_⟩
          intro he
          exact hknotin (he ▸ List.mem_map_of_mem Prod.fst hin2)
      · rintro (rfl | ⟨hin2, hne⟩)
        · exact List.mem_cons_self _ _
        · rcases List.mem_cons.mp hin2 with rfl | hin3
          · exact absurd rfl hne
          · exact List.mem_cons_of_mem _ hin3
    · simp only [alistGet, if_neg hk] at hget
      have hnd2 : (rest.map Prod.fst).Nodup :=
        (List.nodup_cons.mp (by simpa using hnd)).2
      simp only [alistSet, if_neg hk, List.mem_cons, ih hnd2 hget]
      constructor
      · rintro (rfl | h | ⟨hin, hne⟩)
        · exact Or.inr ⟨Or.inl rfl, hk⟩
        · exact Or.inl h
        · exact Or.inr ⟨Or.inr hin, hne⟩
      · rintro (h | ⟨rfl | hin, hne⟩)
        · exact Or.inr (Or.inl h)
        · exact Or.inl rfl
        · exact Or.inr (Or.inr ⟨hin, hne⟩)

/-- Invariant of the `monthlyKeepers` loop after processing `seen`:
every map entry is a processed candidate that is maximal for its bucket
among the processed ones, every processed candidate's bucket has an
entry, and keys are unique. -/
def KeeperInv (monthKey : Int → Int) (seen : List Candidate)
    (m : List (Int × Candidate)) : Prop :=
  (∀ p ∈ m, p.2 ∈ seen ∧ monthKey p.2.date = p.1 ∧
    ∀ c ∈ seen, monthKey c.date = p.1 → c.date ≤ p.2.date) ∧
  (∀ c ∈ seen, ∃ p ∈ m, p.1 = monthKey c.date) ∧
  (m.map Prod.fst).Nodup

/-- One keeper-loop step preserves the invariant. -/
theorem keeperInv_step {monthKey : Int → Int} {seen : List Candidate}
    {m : List (Int × Candidate)} (h : KeeperInv monthKey seen m)
    (b : Candidate) :
    KeeperInv monthKey (seen ++ [b]) (updKeeper monthKey m b) := by
  obtain ⟨hsound, hcomp, hnd⟩ := h
  cases hget : alistGet m (monthKey b.date) with
  | none =>
    have hupd : updKeeper monthKey m b = m ++ [(monthKey b.date, b)] := by
      simp only [updKeeper]
      rw [hget]
      exact alistSet_of_get_none hget b
    rw [hupd]
    refine ⟨?_, ?_, ?_⟩
    · intro p hp
      rcases List.mem_append.mp hp with hp | hp
      · obtain ⟨h1, h2, h3⟩ := hsound p hp
        refine ⟨List.mem_append_left _ h1, h2, ?_⟩
        intro c hc hck
        rcases List.mem_append.mp hc with hc | hc
        · exact h3 c hc hck
        · exfalso
          have hcb : c = b := by simpa using hc
          rw [hcb] at hck
          exact (alistGet_eq_none_iff m (monthKey b.date)).mp hget p hp hck.symm
      · have hpb : p = (monthKey b.date, b) := by simpa using hp
        rw [hpb]
        refine ⟨List.mem_append_right _ (by simp), rfl, ?_⟩
        intro c hc hck
        rcases List.mem_append.mp hc with hc | hc
        · exfalso
          obtain ⟨q, hq, hqk⟩ := hcomp c hc
          exact (alistGet_eq_none_iff m (monthKey b.date)).mp hget q hq
            (by rw [hqk, hck])
        · have hcb : c = b := by simpa using hc
          rw [hcb]
    · intro c hc
      rcases List.mem_append.mp hc with hc | hc
      · obtain ⟨p, hp, hpk⟩ := hcomp c hc
        exact ⟨p, List.mem_append_left _ hp, hpk⟩
      · have hcb : c = b := by simpa using hc
        rw [hcb]
        exact ⟨(monthKey b.date, b), List.mem_append_right _ (by simp), rfl⟩
    · rw [List.map_append]
      refine List.Nodup.append hnd (by simp) ?_
      intro a ha hb
      have hak : a = monthKey b.date := by simpa using hb
      rw [hak] at ha
      obtain ⟨q, hq, hq2⟩ := List.mem_map.mp ha
      exact (alistGet_eq_none_iff m (monthKey b.date)).mp hget q hq hq2
  | some cur =>
    by_cases hlt : cur.date < b.date
    · have hupd : updKeeper monthKey m b = alistSet m (monthKey b.date) b := by
        simp only [updKeeper]
        rw [hget]
        exact if_pos hlt
      rw [hupd]
      have hmem := mem_alistSet_of_get_some (monthKey b.date) cur b
      refine ⟨?_, ?_, ?_⟩
      · intro p hp
        rcases (hmem p m hnd hget).mp hp with hpb | ⟨hp2, hpk⟩
        · rw [hpb]
          refine ⟨List.mem_append_right _ (by simp), rfl, ?_⟩
          intro c hc hck
          rcases List.mem_append.mp hc with hc | hc
          · have hcur := hsound (monthKey b.date, cur) (alistGet_mem hget)
            exact le_trans (hcur.2.2 c hc hck) (le_of_lt hlt)
          · have hcb : c = b := by simpa using hc
            rw [hcb]
        · obtain ⟨h1, h2, h3⟩ := hsound p hp2
          refine ⟨List.mem_append_left _ h1, h2, ?_⟩
          intro c hc hck
          rcases List.mem_append.mp hc with hc | hc
          · exact h3 c hc hck
          · exfalso
            have hcb : c = b := by simpa using hc
            rw [hcb] at hck
            exact hpk hck.symm
      · intro c hc
        rcases List.mem_append.mp hc with hc | hc
        · obtain ⟨p, hp, hpk⟩ := hcomp c hc
          by_cases hpk2 : p.1 = monthKey b.date
          · refine ⟨(monthKey b.date, b), (hmem _ m hnd hget).mpr (Or.inl rfl), ?_⟩
            have hx : monthKey b.date = monthKey c.date := by
              rw [← hpk2]
              exact hpk
            exact hx
          · exact ⟨p, (hmem p m hnd hget).mpr (Or.inr ⟨hp, hpk2⟩), hpk⟩
        · have hcb : c = b := by simpa using hc
          rw [hcb]
          exact ⟨(monthKey b.date, b), (hmem _ m hnd hget).mpr (Or.inl rfl), rfl⟩
      · rw [keys_alistSet_of_get_some hget]
        exact hnd
    · have hupd : updKeeper monthKey m b = m := by
        simp only [updKeeper]
        rw [hget]
        exact if_neg hlt
      rw [hupd]
      refine ⟨?_, ?_, hnd⟩
      · intro p hp
        obtain ⟨h1, h2, h3⟩ := hsound p hp
        refine ⟨List.mem_append_left _ h1, h2, ?_⟩
        intro c hc hck
        rcases List.mem_append.mp hc with hc | hc
        · exact h3 c hc hck
        · have hcb : c = b := by simpa using hc
          rw [hcb] at hck ⊢
          have hpk : p.1 = monthKey b.date := hck.symm
          have hg2 : alistGet m p.1 = some p.2 := alistGet_of_mem hnd hp
          rw [hpk, hget] at hg2
          have hcur : p.2 = cur := (Option.some.inj hg2).symm
          rw [hcur]
          exact not_lt.mp hlt
      · intro c hc
        rcases List.mem_append.mp hc with hc | hc
        · exact hcomp c hc
        · have hcb : c = b := by simpa using hc
          rw [hcb]
          exact ⟨(monthKey b.date, cur), alistGet_mem hget, rfl⟩

/-- The invariant propagates through the whole keeper fold. -/
theorem keeperInv_fold (monthKey : Int → Int) :
    ∀ (l seen : List Candidate) (m : List (Int × Candidate)),
      KeeperInv monthKey seen m →
      KeeperInv monthKey (seen ++ l) (l.foldl (updKeeper monthKey) m) := by
  intro l
  induction l with
  | nil =>
    intro seen m h
    simpa using h
  | cons b rest ih =>
    intro seen m h
    have h2 := keeperInv_step h b
    have h3 := ih (seen ++ [b]) (updKeeper monthKey m b) h2
    simpa [List.append_assoc] using h3

/-- The monthly keeper map of `rotateBackups` satisfies the invariant
over the full old-backups list. -/
theorem keeperInv_rbKeepers (monthKey : Int → Int) (old : List Candidate) :
    KeeperInv monthKey old (rbKeepers monthKey old) := by
  have h := keeperInv_fold monthKey old [] []
    ⟨by simp, by simp, by simp⟩
  simpa [rbKeepers] using h

/-- Boolean list containment agrees with membership for names. -/
theorem contains_iff_mem (l : List String) (a : String) :
    l.contains a = true ↔ a ∈ l := by
  simp [List.contains_iff_exists_mem_beq, beq_iff_eq]

/-- When every candidate already carries the archive suffix, the sorted
working list has the same members as the input. -/
theorem mem_rbSorted {l : List Candidate}
    (hzip : ∀ c ∈ l, strEndsWith c.file ".zip" = true) (c : Candidate) :
    c ∈ rbSorted l ↔ c ∈ l := by
  unfold rbSorted
  rw [mem_sortDesc, List.filter_eq_self.mpr hzip]

/-- Name uniqueness survives filtering and sorting. -/
theorem nodup_rbSorted_names {l : List Candidate}
    (hnd : (l.map Candidate.file).Nodup) :
    ((rbSorted l).map Candidate.file).Nodup := by
  have hperm := (sortDesc_perm (l.filter (fun b => strEndsWith b.file ".zip"))).map
    Candidate.file
  apply hperm.nodup_iff.mpr
  exact List.Nodup.sublist
    (List.Sublist.map Candidate.file (List.filter_sublist l)) hnd

/-- Amended C1: the pruner with the monthly roll-up is `rotateBackups`,
and its recency window is the fixed 30 days, not a parameter.  For
candidates with unique names and the archive suffix: keep and remove
partition the candidate set; every candidate aged at most 30 days is
kept; among the older candidates, each represented month bucket has
exactly one survivor, and that survivor has the maximum timestamp of its
bucket.  (`BackupService.cleanOldBackups` keeps no monthly survivors at
all — see the counterexample.) -/
theorem rotateBackups_prune_policy (monthKey : Int → Int) (now : Int)
    (l : List Candidate) (hnd : (l.map Candidate.file).Nodup)
    (hzip : ∀ c ∈ l, strEndsWith c.file ".zip" = true) :
    (∀ c ∈ l, (c ∈ (rotateBackups monthKey now l).1 ∧
        c ∉ (rotateBackups monthKey now l).2) ∨
      (c ∈ (rotateBackups monthKey now l).2 ∧
        c ∉ (rotateBackups monthKey now l).1)) ∧
    (∀ c ∈ (rotateBackups monthKey now l).1, c ∈ l) ∧
    (∀ c ∈ (rotateBackups monthKey now l).2, c ∈ l) ∧
    (∀ c ∈ l, now - thirtyDaysMs ≤ c.date →
      c ∈ (rotateBackups monthKey now l).1) ∧
    (∀ c ∈ l, c.date < now - thirtyDaysMs →
      ∃ c2, c2 ∈ l ∧ c2.date < now - thirtyDaysMs ∧
        monthKey c2.date = monthKey c.date ∧
        c2 ∈ (rotateBackups monthKey now l).1) ∧
    (∀ c ∈ l, ∀ c2 ∈ l, c.date < now - thirtyDaysMs →
      c2.date < now - thirtyDaysMs → monthKey c.date = monthKey c2.date →
      c ∈ (rotateBackups monthKey now l).1 →
      c2 ∈ (rotateBackups monthKey now l).1 → c = c2) ∧
    (∀ c ∈ l, c.date < now - thirtyDaysMs →
      c ∈ (rotateBackups monthKey now l).1 →
      ∀ c2 ∈ l, c2.date < now - thirtyDaysMs →
        monthKey c2.date = monthKey c.date → c2.date ≤ c.date) := by
  have hmemB : ∀ c : Candidate, c ∈ rbSorted l ↔ c ∈ l := mem_rbSorted hzip
  have hndB : ((rbSorted l).map Candidate.file).Nodup := nodup_rbSorted_names hnd
  have hkeepEq : (rotateBackups monthKey now l).1 =
      (rbSorted l).filter
        (fun b => (rbKeepNames monthKey now (rbSorted l)).contains b.file) := rfl
  have hremEq : (rotateBackups monthKey now l).2 =
      (rbSorted l).filter
        (fun b => !(rbKeepNames monthKey now (rbSorted l)).contains b.file) := rfl
  have hKmem : ∀ c : Candidate, c ∈ (rotateBackups monthKey now l).1 ↔
      c ∈ rbSorted l ∧
        (rbKeepNames monthKey now (rbSorted l)).contains c.file = true := by
    intro c
    rw [hkeepEq]
    exact List.mem_filter
  have hRmem : ∀ c : Candidate, c ∈ (rotateBackups monthKey now l).2 ↔
      c ∈ rbSorted l ∧
        ¬((rbKeepNames monthKey now (rbSorted l)).contains c.file = true) := by
    intro c
    rw [hremEq]
    simp [List.mem_filter]
  have hRecMem : ∀ c : Candidate, c ∈ rbRecent now (rbSorted l) ↔
      c ∈ rbSorted l ∧ now - thirtyDaysMs ≤ c.date := by
    intro c
    simp [rbRecent, List.mem_filter]
  have hOldMem : ∀ c : Candidate, c ∈ rbOld now (rbSorted l) ↔
      c ∈ rbSorted l ∧ c.date < now - thirtyDaysMs := by
    intro c
    simp [rbOld, List.mem_filter]
  have hKN : ∀ x : String, x ∈ rbKeepNames monthKey now (rbSorted l) ↔
      (∃ r, r ∈ rbRecent now (rbSorted l) ∧ r.file = x) ∨
      (∃ p, p ∈ rbKeepers monthKey (rbOld now (rbSorted l)) ∧ p.2.file = x) := by
    intro x
    simp [rbKeepNames, List.mem_append, List.mem_map]
  obtain ⟨hIs, hIc, hIn⟩ := keeperInv_rbKeepers monthKey (rbOld now (rbSorted l))
  have hinj : ∀ a ∈ rbSorted l, ∀ b ∈ rbSorted l,
      Candidate.file a = Candidate.file b → a = b := by
    intro a ha b hb hab
    exact List.inj_on_of_nodup_map hndB ha hb hab
  -- an old candidate is kept exactly when it is its bucket's keeper entry
  have hOldKeep : ∀ c, c ∈ rbSorted l → c.date < now - thirtyDaysMs →
      ((rbKeepNames monthKey now (rbSorted l)).contains c.file = true ↔
        (monthKey c.date, c) ∈ rbKeepers monthKey (rbOld now (rbSorted l))) := by
    intro c hcB hcOldDate
    rw [contains_iff_mem, hKN]
    constructor
    · rintro (⟨r, hr, hrf⟩ | ⟨p, hp, hpf⟩)
      · exfalso
        obtain ⟨hrB, hrDate⟩ := (hRecMem r).mp hr
        have : r = c := hinj r hrB c hcB hrf
        rw [this] at hrDate
        omega
      · obtain ⟨hpOld, hpKey, _⟩ := hIs p hp
        have hpB : p.2 ∈ rbSorted l := ((hOldMem p.2).mp hpOld).1
        have hpc : p.2 = c := hinj p.2 hpB c hcB hpf
        have hpair : p = (monthKey c.date, c) := by
          have h1 : p.1 = monthKey c.date := by
            rw [← hpKey, hpc]
          rw [Prod.ext_iff]
          exact ⟨h1, hpc⟩
        rw [← hpair]
        exact hp
    · intro hp
      refine Or.inr ⟨(monthKey c.date, c), hp, rfl⟩
  refine ⟨?_, ?_, ?_, ?_, ?_, ?_, ?_⟩
  · -- partition
    intro c hc
    have hcB : c ∈ rbSorted l := (hmemB c).mpr hc
    by_cases hcon : (rbKeepNames monthKey now (rbSorted l)).contains c.file = true
    · left
      refine ⟨(hKmem c).mpr ⟨hcB, hcon⟩, ?_⟩
      intro hr
      exact ((hRmem c).mp hr).2 hcon
    · right
      refine ⟨(hRmem c).mpr ⟨hcB, hcon⟩, ?_⟩
      intro hk
      exact hcon ((hKmem c).mp hk).2
  · -- keep ⊆ candidates
    intro c hc
    exact (hmemB c).mp ((hKmem c).mp hc).1
  · -- remove ⊆ candidates
    intro c hc
    exact (hmemB c).mp ((hRmem c).mp hc).1
  · -- recent candidates are kept
    intro c hc hrec
    have hcB : c ∈ rbSorted l := (hmemB c).mpr hc
    refine (hKmem c).mpr ⟨hcB, ?_⟩
    rw [contains_iff_mem, hKN]
    exact Or.inl ⟨c, (hRecMem c).mpr ⟨hcB, hrec⟩, rfl⟩
  · -- each old bucket has a survivor
    intro c hc hcOldDate
    have hcB : c ∈ rbSorted l := (hmemB c).mpr hc
    have hcOld : c ∈ rbOld now (rbSorted l) := (hOldMem c).mpr ⟨hcB, hcOldDate⟩
    obtain ⟨p, hp, hpKey⟩ := hIc c hcOld
    obtain ⟨hpOld, hpKey2, _⟩ := hIs p hp
    obtain ⟨hpB, hpDate⟩ := (hOldMem p.2).mp hpOld
    refine ⟨p.2, (hmemB p.2).mp hpB, hpDate, by rw [hpKey2, hpKey], ?_⟩
    refine (hKmem p.2).mpr ⟨hpB, ?_⟩
    rw [contains_iff_mem, hKN]
    exact Or.inr ⟨p, hp, rfl⟩
  · -- at most one old survivor per bucket
    intro c hc c2 hc2 hcOldDate hc2OldDate hkey hkc hkc2
    have hcB : c ∈ rbSorted l := (hmemB c).mpr hc
    have hc2B : c2 ∈ rbSorted l := (hmemB c2).mpr hc2
    have hk1 := (hOldKeep c hcB hcOldDate).mp ((hKmem c).mp hkc).2
    have hk2 := (hOldKeep c2 hc2B hc2OldDate).mp ((hKmem c2).mp hkc2).2
    have hg1 : alistGet (rbKeepers monthKey (rbOld now (rbSorted l)))
        (monthKey c.date) = some c := alistGet_of_mem hIn hk1
    have hg2 : alistGet (rbKeepers monthKey (rbOld now (rbSorted l)))
        (monthKey c2.date) = some c2 := alistGet_of_mem hIn hk2
    rw [← hkey] at hg2
    rw [hg1] at hg2
    exact Option.some.inj hg2
  · -- the survivor has its bucket's maximum timestamp
    intro c hc hcOldDate hkc c2 hc2 hc2OldDate hkey
    have hcB : c ∈ rbSorted l := (hmemB c).mpr hc
    have hc2B : c2 ∈ rbSorted l := (hmemB c2).mpr hc2
    have hk1 := (hOldKeep c hcB hcOldDate).mp ((hKmem c).mp hkc).2
    obtain ⟨_, _, hmax⟩ := hIs (monthKey c.date, c) hk1
    exact hmax c2 ((hOldMem c2).mpr ⟨hc2B, hc2OldDate⟩) hkey

/-- Witness for the amended C1 on a concrete candidate set: with now at
day 100, the day-99 archive is recent and kept; among the old archives
the day-11 one is kept as its month's newest while the day-10 one is
removed. -/
theorem rotateBackups_prune_policy_witness :
    ⟨"a.zip", 99 * 86400000⟩ ∈
      (rotateBackups (fun t => t / thirtyDaysMs) (100 * 86400000)
        [⟨"a.zip", 99 * 86400000⟩, ⟨"b.zip", 10 * 86400000⟩,
         ⟨"c.zip", 11 * 86400000⟩]).1 ∧
    (⟨"b.zip", 10 * 86400000⟩ : Candidate) ∈
      (rotateBackups (fun t => t / thirtyDaysMs) (100 * 86400000)
        [⟨"a.zip", 99 * 86400000⟩, ⟨"b.zip", 10 * 86400000⟩,
         ⟨"c.zip", 11 * 86400000⟩]).2 := by
  have h := rotateBackups_prune_policy (fun t => t / thirtyDaysMs) (100 * 86400000)
    [⟨"a.zip", 99 * 86400000⟩, ⟨"b.zip", 10 * 86400000⟩, ⟨"c.zip", 11 * 86400000⟩]
    (by decide) (by decide)
  constructor
  · exact h.2.2.2.1 ⟨"a.zip", 99 * 86400000⟩ (by simp) (by norm_num [thirtyDaysMs])
  · have hpart := h.1 ⟨"b.zip", 10 * 86400000⟩ (by simp)
    rcases hpart with ⟨hin, _⟩ | ⟨hin, _⟩
    · exfalso
      have hmax := h.2.2.2.2.2.2 ⟨"b.zip", 10 * 86400000⟩ (by simp)
        (by norm_num [thirtyDaysMs]) hin ⟨"c.zip", 11 * 86400000⟩ (by simp)
        (by norm_num [thirtyDaysMs]) (by norm_num [thirtyDaysMs])
      norm_num at hmax
    · exact hin

end WowBackup
